import Mathlib

/-!
Shallow embedding of the core of the MeomoryPool repository
(`src/ConcurrentMemoryPool_CentralCache/Common.hpp`): the `SizeClass`
size-to-bucket mapping, the `FreeList` singly linked free-object list,
and the `Span` / `SpanList` intrusive doubly linked list.

Machine integers (`size_t`) are modelled as `Nat`; the bitwise complement
`~(alignNum - 1)` of a 64-bit word is modelled as `2^64 - 1 - (alignNum - 1)`.
Null pointers are modelled as the address `0`.  Fallible operations
(failed `assert`, dereference of a null pointer) return `Except Fault`.
-/

namespace MemoryPool

/-- `static const size_t MAX_BYTES = 256 * 1024;` -/
def MAX_BYTES : Nat := 256 * 1024

/-- `static const size_t NFREELIST = 208;` -/
def NFREELIST : Nat := 208

/-- Outcome of a run-time fault: a failed `assert(...)`, or a dereference of
a null pointer (undefined behaviour in the C++ source, modelled explicitly). -/
inductive Fault where
  | assertFail : Fault
  | nullDeref : Fault
  deriving DecidableEq, Repr

namespace SizeClass

/-- `static inline size_t _RoundUp(size_t bytes, size_t alignNum)
    { return (bytes + alignNum - 1) & ~(alignNum - 1); }`
with `~` the complement on the 64-bit word `size_t`. -/
def _RoundUp (bytes alignNum : Nat) : Nat :=
  Nat.land (bytes + alignNum - 1) (2 ^ 64 - 1 - (alignNum - 1))

/-- `static inline size_t RoundUp(size_t size)`: the five-tier alignment
if-chain; the trailing `assert(false)` branch is a fault. -/
def RoundUp (size : Nat) : Except Fault Nat :=
  if size ≤ 128 then .ok (_RoundUp size 8)
  else if size ≤ 1024 then .ok (_RoundUp size 16)
  else if size ≤ 8 * 1024 then .ok (_RoundUp size 128)
  else if size ≤ 64 * 1024 then .ok (_RoundUp size 1024)
  else if size ≤ 256 * 1024 then .ok (_RoundUp size (8 * 1024))
  else .error .assertFail

/-- `static inline size_t _Index(size_t bytes, size_t align_shift)
    { return (bytes + (1 << align_shift) - 1) >> align_shift - 1; }`
Note the C++ operator precedence: the shift amount is `align_shift - 1`. -/
def _Index (bytes align_shift : Nat) : Nat :=
  (bytes + (1 <<< align_shift) - 1) >>> (align_shift - 1)

/-- `static int group_array[4] = {16, 56, 56, 56};` -/
def group_array : List Nat := [16, 56, 56, 56]

/-- `static inline size_t Index(size_t bytes)`: per-tier `_Index` offset by
the cumulative `group_array` bucket counts; `assert(false)` past the ceiling. -/
def Index (bytes : Nat) : Except Fault Nat :=
  if bytes ≤ 128 then .ok (_Index bytes 3)
  else if bytes ≤ 1024 then .ok (_Index (bytes - 128) 4 + group_array.getD 0 0)
  else if bytes ≤ 8 * 1024 then
    .ok (_Index (bytes - 1024) 7 + group_array.getD 0 0 + group_array.getD 1 0)
  else if bytes ≤ 64 * 1024 then
    .ok (_Index (bytes - 8 * 1024) 10 + group_array.getD 0 0 + group_array.getD 1 0 +
      group_array.getD 2 0)
  else if bytes ≤ 256 * 1024 then
    .ok (_Index (bytes - 64 * 1024) 13 + group_array.getD 0 0 + group_array.getD 1 0 +
      group_array.getD 2 0 + group_array.getD 3 0)
  else .error .assertFail

/-- `static size_t NumMoveSize(size_t size)`: `assert(size > 0)`, then
`MAX_BYTES / size` clamped into `[2, 512]`. -/
def NumMoveSize (size : Nat) : Except Fault Nat :=
  if size > 0 then
    let num := MAX_BYTES / size
    let num := if num < 2 then 2 else num
    let num := if num > 512 then 512 else num
    .ok num
  else .error .assertFail

end SizeClass

/-! ## FreeList

The C++ `FreeList` stores raw free objects whose first machine word is
reused as the next pointer (`NextObj`).  The embedding makes the word
memory explicit: `mem a` is the word stored at address `a`, and the null
pointer is address `0`.  Reading or writing `NextObj(p)` with `p` null is a
null dereference. -/

structure FreeListS where
  mem : Nat → Nat
  head : Nat
  maxSize : Nat

/-- A fresh `FreeList`: `_head = nullptr`, `_maxSize = 1`, over word memory
`m`. -/
def mkFreeList (m : Nat → Nat) : FreeListS :=
  { mem := m, head := 0, maxSize := 1 }

/-- A fresh `FreeList` over all-zero memory. -/
def initFreeList : FreeListS := mkFreeList fun _ => 0

namespace FreeList

/-- `void Push(void* obj) { NextObj(obj) = _head; _head = obj; }` —
writing through `obj` requires `obj` non-null. -/
def Push (s : FreeListS) (obj : Nat) : Except Fault FreeListS :=
  if obj = 0 then .error .nullDeref
  else .ok { s with mem := Function.update s.mem obj s.head, head := obj }

/-- `void PushRange(void* start, void* end)
    { NextObj(end) = _head; _head = start; }` -/
def PushRange (s : FreeListS) (start stop : Nat) : Except Fault FreeListS :=
  if stop = 0 then .error .nullDeref
  else .ok { s with mem := Function.update s.mem stop s.head, head := start }

/-- `void* Pop() { void* obj = _head; _head = NextObj(_head); return obj; }`
— `NextObj(_head)` dereferences `_head`, which is a null dereference when the
list is empty.  There is no `assert` in the source. -/
def Pop (s : FreeListS) : Except Fault (Nat × FreeListS) :=
  if s.head = 0 then .error .nullDeref
  else .ok (s.head, { s with head := s.mem s.head })

/-- `bool Empty() { return _head == nullptr; }` -/
def Empty (s : FreeListS) : Bool :=
  s.head = 0

/-- `size_t& MaxSize() { return _maxSize; }` (read access). -/
def MaxSize (s : FreeListS) : Nat :=
  s.maxSize

/-- Push each object of `objs` in order (left to right). -/
def pushList (s : FreeListS) : List Nat → Except Fault FreeListS
  | [] => .ok s
  | o :: t =>
    match Push s o with
    | .error e => .error e
    | .ok s1 => pushList s1 t

/-- Pop `n` times, collecting the returned objects in order. -/
def popN (s : FreeListS) : Nat → Except Fault (List Nat × FreeListS)
  | 0 => .ok ([], s)
  | n + 1 =>
    match Pop s with
    | .error e => .error e
    | .ok (a, s1) =>
      match popN s1 n with
      | .error e => .error e
      | .ok (as, s2) => .ok (a :: as, s2)

end FreeList

/-! ## Span and SpanList

Spans live at addresses (`Nat`, with `0` the null pointer); `nodes a` is the
`Span` record stored at address `a`.  A `SpanList` is the sentinel address
`_head` together with that span memory. -/

/-- `struct Span`: page run descriptor with intrusive links.  Pointer
fields (`_next`, `_prev`, `_freeList`) hold addresses. -/
@[ext]
structure Span where
  _pageId : Nat
  _nPage : Nat
  _next : Nat
  _prev : Nat
  _freeList : Nat
  _useCount : Nat
  _objSize : Nat

structure SpanListS where
  nodes : Nat → Span
  head : Nat

/-- The `SpanList` constructor: `_head = new Span; _head->_next = _head;
_head->_prev = _head;` — sentinel at address `h` over span memory `m`. -/
def mkSpanList (m : Nat → Span) (h : Nat) : SpanListS :=
  { nodes := Function.update m h { m h with _next := h, _prev := h }, head := h }

namespace SpanList

/-- `Span* Begin() { return _head->_next; }` -/
def Begin (s : SpanListS) : Nat :=
  (s.nodes s.head)._next

/-- `Span* End() { return _head; }` -/
def End (s : SpanListS) : Nat :=
  s.head

/-- `bool Empty() { return _head->_next == _head; }` -/
def Empty (s : SpanListS) : Bool :=
  (s.nodes s.head)._next = s.head

/-- `void Insert(Span* cur, Span* newspan)`: `assert(cur); assert(newspan);`
then `prev->_next = newspan; newspan->_prev = prev; newspan->_next = cur;
cur->_prev = newspan;` with `prev = cur->_prev`, the four field writes
performed in source order. -/
def Insert (s : SpanListS) (cur newspan : Nat) : Except Fault SpanListS :=
  if cur = 0 then .error .assertFail
  else if newspan = 0 then .error .assertFail
  else
    let prev := (s.nodes cur)._prev
    let n1 := Function.update s.nodes prev { s.nodes prev with _next := newspan }
    let n2 := Function.update n1 newspan { n1 newspan with _prev := prev }
    let n3 := Function.update n2 newspan { n2 newspan with _next := cur }
    let n4 := Function.update n3 cur { n3 cur with _prev := newspan }
    .ok { s with nodes := n4 }

/-- `void Erase(Span* cur)`: `assert(cur); assert(cur != _head);` then
`prev->_next = next; next->_prev = prev;` with `prev = cur->_prev`,
`next = cur->_next`, the two field writes performed in source order. -/
def Erase (s : SpanListS) (cur : Nat) : Except Fault SpanListS :=
  if cur = 0 then .error .assertFail
  else if cur = s.head then .error .assertFail
  else
    let prev := (s.nodes cur)._prev
    let next := (s.nodes cur)._next
    let n1 := Function.update s.nodes prev { s.nodes prev with _next := next }
    let n2 := Function.update n1 next { n1 next with _prev := prev }
    .ok { s with nodes := n2 }

end SpanList

/-! ## Proof-level representations -/

/-- Modelled from the spec: `alignmentForTier` — the alignment of a size's
tier (`≤128 → 8`, `≤1024 → 16`, `≤8192 → 128`, `≤65536 → 1024`,
else `8192`), used to state the fragmentation bound. -/
def alignmentForTier (size : Nat) : Nat :=
  if size ≤ 128 then 8
  else if size ≤ 1024 then 16
  else if size ≤ 8 * 1024 then 128
  else if size ≤ 64 * 1024 then 1024
  else 8192

/-- The free chain hanging from address `h` in word memory `mem` is exactly
the list `L` of (non-null) object addresses, terminated by the null
pointer. -/
def chainIs (mem : Nat → Nat) : Nat → List Nat → Prop
  | h, [] => h = 0
  | h, a :: t => h = a ∧ a ≠ 0 ∧ chainIs mem (mem a) t

/-- Consecutive links along a list of span addresses, following the pointer
field selected by `f`. -/
def linksBy (f : Span → Nat) (s : SpanListS) : List Nat → Prop
  | [] => True
  | [_] => True
  | a :: b :: t => f (s.nodes a) = b ∧ linksBy f s (b :: t)

/-- Walk `k` nodes from `x` following the pointer field selected by `f`,
collecting the visited addresses. -/
def walkBy (f : Span → Nat) (s : SpanListS) : Nat → Nat → List Nat
  | _, 0 => []
  | x, k + 1 => x :: walkBy f s (f (s.nodes x)) k

/-- Consecutive `_next` links along a list of span addresses. -/
def linksNext (s : SpanListS) (l : List Nat) : Prop :=
  linksBy Span._next s l

/-- Consecutive `_prev` links along a list of span addresses (listed in the
order the `_prev` pointers are followed). -/
def linksPrev (s : SpanListS) (l : List Nat) : Prop :=
  linksBy Span._prev s l

/-- Walk `k` nodes from `x` following `_next`, collecting the visited
addresses. -/
def walkNext (s : SpanListS) : Nat → Nat → List Nat :=
  walkBy Span._next s

/-- Walk `k` nodes from `x` following `_prev`, collecting the visited
addresses. -/
def walkPrev (s : SpanListS) : Nat → Nat → List Nat :=
  walkBy Span._prev s

/-- The circular list rooted at the sentinel holds exactly the live spans
`L`: `_next` links run `head, L…, head`, `_prev` links run
`head, L.reverse…, head`, and the addresses are distinct and non-null. -/
def SpanListRepr (s : SpanListS) (L : List Nat) : Prop :=
  linksNext s (s.head :: L ++ [s.head]) ∧
  linksPrev s (s.head :: L.reverse ++ [s.head]) ∧
  (s.head :: L).Nodup ∧ s.head ≠ 0 ∧ ∀ x ∈ L, x ≠ 0

/-- States reachable from a freshly constructed `SpanList` by `Insert` at a
position inside the list (`cur` is a live span or the sentinel `End()`) and
`Erase` of a live span, together with the list of live spans in order.
`Insert` before `cur = (L2.headD s.head)` places the new span between the
prefix `L1` and suffix `L2`; `Erase` removes a live span. -/
inductive Reach : SpanListS → List Nat → Prop
  | init (m : Nat → Span) (h : Nat) (h0 : h ≠ 0) : Reach (mkSpanList m h) []
  | insert {s : SpanListS} {L1 L2 : List Nat} {newspan : Nat} {s1 : SpanListS}
      (hr : Reach s (L1 ++ L2)) (h0 : newspan ≠ 0) (hh : newspan ≠ s.head)
      (hL : newspan ∉ L1 ++ L2)
      (hop : SpanList.Insert s (L2.headD s.head) newspan = .ok s1) :
      Reach s1 (L1 ++ newspan :: L2)
  | erase {s : SpanListS} {L1 L2 : List Nat} {x : Nat} {s1 : SpanListS}
      (hr : Reach s (L1 ++ x :: L2))
      (hop : SpanList.Erase s x = .ok s1) :
      Reach s1 (L1 ++ L2)

/-- A two-node ring (sentinel `1`, one live span `2`) used as a concrete
input. -/
def ringTwo : SpanListS :=
  { nodes := fun a =>
      { _pageId := a, _nPage := 1,
        _next := if a = 1 then 2 else if a = 2 then 1 else 0,
        _prev := if a = 1 then 2 else if a = 2 then 1 else 0,
        _freeList := 0, _useCount := 0, _objSize := 8 },
    head := 1 }

/-! ## Arithmetic of `_RoundUp` -/

/-- Masking a 64-bit value with `2^64 - 2^k` clears the low `k` bits. -/
theorem land_high_mask (x k : Nat) (hk : k ≤ 64) (hx : x < 2 ^ 64) :
    Nat.land x (2 ^ 64 - 2 ^ k) = x / 2 ^ k * 2 ^ k := by
  have hmask : 2 ^ 64 - 2 ^ k = (2 ^ (64 - k) - 1) <<< k := by
    rw [Nat.shiftLeft_eq, Nat.sub_mul, one_mul, ← Nat.pow_add, Nat.sub_add_cancel hk]
  have hr : x / 2 ^ k * 2 ^ k = (x >>> k) <<< k := by
    rw [Nat.shiftRight_eq_div_pow, Nat.shiftLeft_eq]
  rw [hmask, hr]
  apply Nat.eq_of_testBit_eq
  intro i
  show (x &&& _).testBit i = _
  rw [Nat.testBit_land]
  simp only [Nat.testBit_shiftLeft, Nat.testBit_shiftRight, Nat.testBit_two_pow_sub_one]
  by_cases hik : k ≤ i
  · have hki : k + (i - k) = i := by omega
    by_cases hi64 : i < 64
    · simp [hik, hki, show i - k < 64 - k by omega, ge_iff_le]
    · have hb : x.testBit i = false :=
        Nat.testBit_lt_two_pow
          (lt_of_lt_of_le hx (Nat.pow_le_pow_right (by norm_num) (by omega)))
      simp [hik, hki, hb, show ¬ i - k < 64 - k by omega, ge_iff_le]
  · simp [hik, ge_iff_le]

/-- `_RoundUp` at a power-of-two alignment is division rounding up,
scaled back. -/
theorem _RoundUp_eq (bytes k : Nat) (hk : k ≤ 64) (hb : bytes + 2 ^ k - 1 < 2 ^ 64) :
    SizeClass._RoundUp bytes (2 ^ k) = (bytes + 2 ^ k - 1) / 2 ^ k * 2 ^ k := by
  unfold SizeClass._RoundUp
  have h1 : 1 ≤ 2 ^ k := Nat.one_le_two_pow
  have h2 : 2 ^ k ≤ 2 ^ 64 := Nat.pow_le_pow_right (by norm_num) hk
  have h3 : 2 ^ 64 - 1 - (2 ^ k - 1) = 2 ^ 64 - 2 ^ k := by omega
  rw [h3]
  exact land_high_mask _ k hk hb

theorem roundUp_8 (s : Nat) (hs : s ≤ 262144) :
    SizeClass._RoundUp s 8 = (s + 7) / 8 * 8 := by
  have h := _RoundUp_eq s 3 (by norm_num) (by norm_num; omega)
  norm_num at h
  exact h

theorem roundUp_16 (s : Nat) (hs : s ≤ 262144) :
    SizeClass._RoundUp s 16 = (s + 15) / 16 * 16 := by
  have h := _RoundUp_eq s 4 (by norm_num) (by norm_num; omega)
  norm_num at h
  exact h

theorem roundUp_128 (s : Nat) (hs : s ≤ 262144) :
    SizeClass._RoundUp s 128 = (s + 127) / 128 * 128 := by
  have h := _RoundUp_eq s 7 (by norm_num) (by norm_num; omega)
  norm_num at h
  exact h

theorem roundUp_1024 (s : Nat) (hs : s ≤ 262144) :
    SizeClass._RoundUp s 1024 = (s + 1023) / 1024 * 1024 := by
  have h := _RoundUp_eq s 10 (by norm_num) (by norm_num; omega)
  norm_num at h
  exact h

theorem roundUp_8192 (s : Nat) (hs : s ≤ 262144) :
    SizeClass._RoundUp s 8192 = (s + 8191) / 8192 * 8192 := by
  have h := _RoundUp_eq s 13 (by norm_num) (by norm_num; omega)
  norm_num at h
  exact h

/-! ## Claim theorems -/

/-- C1: the claim fails on the code.  `SizeClass::Index` does not keep its
results inside `[0, 208)`: `Index(65536) = 241 ≥ 208 = NFREELIST`, and the
smallest index ever produced on tier one is `Index(1) = 2`, so bucket `0` is
never hit — the image is not `[0, 208)`.  (The shift in `_Index` is
`align_shift - 1` by C++ precedence, where the documented mapping needs
`(... >> align_shift) - 1`.) -/
theorem c1_index_range_violated :
    SizeClass.Index 65536 = .ok 241 ∧ SizeClass.Index 1 = .ok 2 ∧
      SizeClass.Index 7 = .ok 3 ∧ ¬ 241 < NFREELIST :=
  ⟨rfl, rfl, rfl, by decide⟩

/-- C2: the claim fails on the code.  `SizeClass::Index` is not monotonic
across the first tier boundary: `Index(128) = 33 > 18 = Index(129)`. -/
theorem c2_index_not_monotone :
    (128 : Nat) ≤ 129 ∧ SizeClass.Index 128 = .ok 33 ∧
      SizeClass.Index 129 = .ok 18 ∧ ¬ (33 : Nat) ≤ 18 :=
  ⟨by decide, rfl, rfl, by decide⟩

/-- C3: `RoundUp(7) = 8` holds, but `Index(7) = 3`, not `0` as the claim
(and the code's own comment at `Index`) states. -/
theorem c3_request_size_7 :
    SizeClass.RoundUp 7 = .ok 8 ∧ SizeClass.Index 7 = .ok 3 ∧ (3 : Nat) ≠ 0 :=
  ⟨rfl, rfl, by decide⟩

/-- C4: for every request size in `[1, 262144]`, `RoundUp` succeeds, the
result is at least the request, and the waste is below the tier's
alignment. -/
theorem c4_roundUp_fragmentation (s : Nat) (h1 : 1 ≤ s) (h2 : s ≤ 262144) :
    ∃ r, SizeClass.RoundUp s = .ok r ∧ s ≤ r ∧ r - s < alignmentForTier s := by
  unfold SizeClass.RoundUp alignmentForTier
  split_ifs with t1 t2 t3 t4
  · exact ⟨_, rfl, by rw [roundUp_8 s (by omega)]; omega⟩
  · exact ⟨_, rfl, by rw [roundUp_16 s (by omega)]; omega⟩
  · exact ⟨_, rfl, by rw [roundUp_128 s (by omega)]; omega⟩
  · exact ⟨_, rfl, by rw [roundUp_1024 s (by omega)]; omega⟩
  · exact ⟨_, rfl, by rw [show (8 * 1024 : Nat) = 8192 by norm_num,
      roundUp_8192 s (by omega)]; omega⟩

/-- C4 witness at `s = 7`. -/
theorem c4_roundUp_fragmentation_witness :
    ∃ r, SizeClass.RoundUp 7 = .ok r ∧ 7 ≤ r ∧ r - 7 < alignmentForTier 7 :=
  c4_roundUp_fragmentation 7 (by decide) (by decide)

/-- C9: `RoundUp` is idempotent on `[1, 262144]`: a rounded size is a fixed
point of `RoundUp`. -/
theorem c9_roundUp_idempotent (s r : Nat) (h1 : 1 ≤ s) (h2 : s ≤ 262144)
    (h : SizeClass.RoundUp s = .ok r) : SizeClass.RoundUp r = .ok r := by
  unfold SizeClass.RoundUp at h ⊢
  split_ifs at h with t1 t2 t3 t4
  · rw [roundUp_8 s (by omega)] at h
    replace h : r = (s + 7) / 8 * 8 := by injection h; omega
    have hr : r ≤ 128 ∧ r % 8 = 0 := by omega
    rw [if_pos (by omega), roundUp_8 r (by omega)]
    congr 1
    omega
  · rw [roundUp_16 s (by omega)] at h
    replace h : r = (s + 15) / 16 * 16 := by injection h; omega
    have hr : 128 < r ∧ r ≤ 1024 ∧ r % 16 = 0 := by omega
    rw [if_neg (by omega), if_pos (by omega), roundUp_16 r (by omega)]
    congr 1
    omega
  · rw [roundUp_128 s (by omega)] at h
    replace h : r = (s + 127) / 128 * 128 := by injection h; omega
    have hr : 1024 < r ∧ r ≤ 8 * 1024 ∧ r % 128 = 0 := by omega
    rw [if_neg (by omega), if_neg (by omega), if_pos (by omega),
      roundUp_128 r (by omega)]
    congr 1
    omega
  · rw [roundUp_1024 s (by omega)] at h
    replace h : r = (s + 1023) / 1024 * 1024 := by injection h; omega
    have hr : 8 * 1024 < r ∧ r ≤ 64 * 1024 ∧ r % 1024 = 0 := by omega
    rw [if_neg (by omega), if_neg (by omega), if_neg (by omega),
      if_pos (by omega), roundUp_1024 r (by omega)]
    congr 1
    omega
  · rw [show (8 * 1024 : Nat) = 8192 by norm_num, roundUp_8192 s (by omega)] at h
    replace h : r = (s + 8191) / 8192 * 8192 := by injection h; omega
    have hr : 64 * 1024 < r ∧ r ≤ 256 * 1024 ∧ r % 8192 = 0 := by omega
    rw [if_neg (by omega), if_neg (by omega), if_neg (by omega),
      if_neg (by omega), if_pos (by omega),
      show (8 * 1024 : Nat) = 8192 by norm_num, roundUp_8192 r (by omega)]
    congr 1
    omega

/-- C9 witness at `s = 7`: `RoundUp 7 = 8` and `RoundUp 8 = 8`. -/
theorem c9_roundUp_idempotent_witness : SizeClass.RoundUp 8 = .ok 8 :=
  c9_roundUp_idempotent 7 8 (by decide) (by decide) rfl

/-- For a positive size, `NumMoveSize` is the clamped quotient. -/
theorem numMoveSize_pos (s : Nat) (hs : 0 < s) :
    SizeClass.NumMoveSize s =
      .ok (if MAX_BYTES / s < 2 then 2
        else if MAX_BYTES / s > 512 then 512 else MAX_BYTES / s) := by
  unfold SizeClass.NumMoveSize
  rw [if_pos hs]
  by_cases h2 : MAX_BYTES / s < 2
  · simp [h2, show ¬ (2 : Nat) > 512 by omega]
  · simp [h2]

/-- C6: `NumMoveSize` succeeds on `[1, 262144]` with a result in `[2, 512]`,
is non-increasing in the object size, and hits the boundary exactly:
`NumMoveSize 512 = 512`. -/
theorem c6_numMoveSize :
    (∀ s, 1 ≤ s → s ≤ 262144 →
      ∃ n, SizeClass.NumMoveSize s = .ok n ∧ 2 ≤ n ∧ n ≤ 512) ∧
    (∀ s1 s2 n1 n2, 1 ≤ s1 → s1 ≤ s2 → s2 ≤ 262144 →
      SizeClass.NumMoveSize s1 = .ok n1 → SizeClass.NumMoveSize s2 = .ok n2 →
      n2 ≤ n1) ∧
    SizeClass.NumMoveSize 512 = .ok 512 := by
  refine ⟨?_, ?_, rfl⟩
  · intro s hs1 hs2
    rw [numMoveSize_pos s (by omega)]
    refine ⟨_, rfl, ?_⟩
    split_ifs <;> omega
  · intro s1 s2 n1 n2 h1 h12 h2 e1 e2
    rw [numMoveSize_pos s1 (by omega)] at e1
    rw [numMoveSize_pos s2 (by omega)] at e2
    have hdiv : MAX_BYTES / s2 ≤ MAX_BYTES / s1 := Nat.div_le_div_left h12 (by omega)
    replace e1 := (Except.ok.inj e1).symm
    replace e2 := (Except.ok.inj e2).symm
    split_ifs at e1 e2 <;> omega

/-- C6 witness: bounds at `s = 3000` and antitonicity at `(3000, 4000)`. -/
theorem c6_numMoveSize_witness :
    (∃ n, SizeClass.NumMoveSize 3000 = .ok n ∧ 2 ≤ n ∧ n ≤ 512) ∧
    (∀ n1 n2, SizeClass.NumMoveSize 3000 = .ok n1 →
      SizeClass.NumMoveSize 4000 = .ok n2 → n2 ≤ n1) :=
  ⟨c6_numMoveSize.1 3000 (by decide) (by decide),
   fun n1 n2 e1 e2 =>
     c6_numMoveSize.2.1 3000 4000 n1 n2 (by decide) (by decide) (by decide) e1 e2⟩

/-- C5 counterexample: on the empty `FreeList`, `Pop` does not fail the
claimed way — there is no assertion in `Pop`; it dereferences the null
head instead. -/
theorem c5_counterexample :
    FreeList.Empty initFreeList = true ∧
    FreeList.Pop initFreeList ≠ .error Fault.assertFail := by
  refine ⟨rfl, fun h => ?_⟩
  have h0 : FreeList.Pop initFreeList = .error Fault.nullDeref := rfl
  rw [h0] at h
  exact Fault.noConfusion (Except.error.inj h)

/-- C5 amended: `Pop` on a `FreeList` whose `Empty()` is true dereferences
the null `_head` pointer (`NextObj(_head)`), returning no value; the halt is
a null dereference, not an assertion. -/
theorem c5_pop_empty_null_deref (s : FreeListS) (h : FreeList.Empty s = true) :
    FreeList.Pop s = .error Fault.nullDeref := by
  unfold FreeList.Pop
  rw [if_pos (by simpa [FreeList.Empty] using h)]

/-- C5 witness at the fresh `FreeList`. -/
theorem c5_pop_empty_null_deref_witness :
    FreeList.Pop initFreeList = .error Fault.nullDeref :=
  c5_pop_empty_null_deref initFreeList rfl

/-! ## FreeList chain lemmas (C7) -/

/-- Updating the word of an address outside the chain leaves the chain
intact. -/
theorem chainIs_update {obj v : Nat} (mem : Nat → Nat) (L : List Nat)
    (hno : obj ∉ L) :
    ∀ h, chainIs (Function.update mem obj v) h L ↔ chainIs mem h L := by
  induction L with
  | nil => intro h; exact Iff.rfl
  | cons a t ih =>
    intro h
    have ha : a ≠ obj := by rintro rfl; exact hno (List.mem_cons_self a t)
    have ht : obj ∉ t := fun m => hno (List.mem_cons_of_mem a m)
    simp only [chainIs, Function.update_noteq ha]
    exact and_congr Iff.rfl (and_congr Iff.rfl (ih ht (mem a)))

/-- `Push` prepends a fresh non-null object to the chain. -/
theorem Push_chain (s : FreeListS) (obj : Nat) (L : List Nat)
    (hc : chainIs s.mem s.head L) (h0 : obj ≠ 0) (hno : obj ∉ L) :
    ∃ s1, FreeList.Push s obj = .ok s1 ∧ chainIs s1.mem s1.head (obj :: L) := by
  unfold FreeList.Push
  rw [if_neg h0]
  refine ⟨_, rfl, rfl, h0, ?_⟩
  show chainIs (Function.update s.mem obj s.head)
    (Function.update s.mem obj s.head obj) L
  rw [Function.update_same]
  exact (chainIs_update s.mem L hno s.head).mpr hc

/-- Pushing a list of distinct fresh non-null objects reverses it onto the
chain. -/
theorem pushList_chain (objs : List Nat) :
    ∀ (s : FreeListS) (L : List Nat), chainIs s.mem s.head L →
      objs.Nodup → (∀ o ∈ objs, o ≠ 0) → (∀ o ∈ objs, o ∉ L) →
      ∃ s1, FreeList.pushList s objs = .ok s1 ∧
        chainIs s1.mem s1.head (objs.reverse ++ L) := by
  induction objs with
  | nil => intro s L hc _ _ _; exact ⟨s, rfl, by simpa using hc⟩
  | cons o t ih =>
    intro s L hc hnd hnz hnL
    obtain ⟨s1, e1, hc1⟩ := Push_chain s o L hc
      (hnz o (List.mem_cons_self o t)) (hnL o (List.mem_cons_self o t))
    obtain ⟨s2, e2, hc2⟩ := ih s1 (o :: L) hc1 hnd.of_cons
      (fun x hx => hnz x (List.mem_cons_of_mem o hx))
      (fun x hx hmem => by
        rcases List.mem_cons.mp hmem with h | h
        · exact (List.nodup_cons.mp hnd).1 (h ▸ hx)
        · exact hnL x (List.mem_cons_of_mem o hx) h)
    refine ⟨s2, ?_, by simpa [List.append_assoc] using hc2⟩
    show FreeList.pushList s (o :: t) = .ok s2
    unfold FreeList.pushList
    rw [e1]
    exact e2

/-- `Pop` removes the chain's first object. -/
theorem Pop_chain (s : FreeListS) (a : Nat) (L : List Nat)
    (hc : chainIs s.mem s.head (a :: L)) :
    FreeList.Pop s = .ok (a, { s with head := s.mem a }) ∧
      chainIs s.mem (s.mem a) L := by
  obtain ⟨h1, h2, h3⟩ := hc
  refine ⟨?_, h3⟩
  unfold FreeList.Pop
  rw [if_neg (h1 ▸ h2), h1]

/-- Popping `k ≤ |L|` times off a chain `L` returns its first `k` objects
and leaves the rest, without touching the word memory. -/
theorem popN_chain :
    ∀ (k : Nat) (s : FreeListS) (L : List Nat), k ≤ L.length →
      chainIs s.mem s.head L →
      ∃ s1, FreeList.popN s k = .ok (L.take k, s1) ∧
        chainIs s1.mem s1.head (L.drop k) := by
  intro k
  induction k with
  | zero => intro s L _ hc; exact ⟨s, rfl, by simpa using hc⟩
  | succ n ih =>
    intro s L hk hc
    match L with
    | [] => simp at hk
    | a :: t =>
      obtain ⟨e1, hc1⟩ := Pop_chain s a t hc
      obtain ⟨s1, e2, hc2⟩ := ih { s with head := s.mem a } t
        (by simpa using hk) hc1
      refine ⟨s1, ?_, by simpa using hc2⟩
      show FreeList.popN s (n + 1) = _
      unfold FreeList.popN
      rw [e1]
      show (match FreeList.popN { s with head := s.mem a } n with
        | Except.error e => Except.error e
        | Except.ok (as, s2) => Except.ok (a :: as, s2)) = _
      rw [e2]
      rfl

/-- C7: FreeList is LIFO.  Pushing distinct non-null objects onto a fresh
`FreeList` succeeds; `Empty()` is true on the fresh list; popping `k` times
then returns the first `k` objects of the reversed push order, and the list
is empty again exactly after all `N` pops. -/
theorem c7_freelist_lifo (objs : List Nat) (hnd : objs.Nodup)
    (hnz : ∀ o ∈ objs, o ≠ 0) :
    FreeList.Empty initFreeList = true ∧
    ∃ s, FreeList.pushList initFreeList objs = .ok s ∧
      ∀ k, k ≤ objs.length →
        ∃ sk, FreeList.popN s k = .ok (objs.reverse.take k, sk) ∧
          (FreeList.Empty sk = true ↔ k = objs.length) := by
  refine ⟨rfl, ?_⟩
  obtain ⟨s, e, hc⟩ := pushList_chain objs initFreeList [] rfl hnd hnz
    (by intro o _ h; exact absurd h (List.not_mem_nil o))
  rw [List.append_nil] at hc
  refine ⟨s, e, ?_⟩
  intro k hk
  obtain ⟨sk, ek, hck⟩ := popN_chain k s objs.reverse (by simpa using hk) hc
  refine ⟨sk, ek, ?_⟩
  constructor
  · intro he
    by_contra hne
    have hlt : k < objs.reverse.length := by
      rw [List.length_reverse]; omega
    obtain ⟨a, t, hdrop⟩ : ∃ a t, objs.reverse.drop k = a :: t := by
      cases hd : objs.reverse.drop k with
      | nil => rw [List.drop_eq_nil_iff] at hd; omega
      | cons a t => exact ⟨a, t, rfl⟩
    rw [hdrop] at hck
    obtain ⟨h1, h2, _⟩ := hck
    simp only [FreeList.Empty, decide_eq_true_eq] at he
    exact h2 (h1 ▸ he)
  · intro he
    subst he
    rw [List.drop_eq_nil_iff.mpr (by rw [List.length_reverse])] at hck
    simp only [FreeList.Empty, decide_eq_true_eq]
    exact hck

/-! ## SpanList memory characterizations (C8, C10) -/

/-- `Erase` on a non-null, non-sentinel span succeeds and changes exactly
the predecessor's `_next` (to the successor) and the successor's `_prev`
(to the predecessor); every other field of every span is untouched. -/
theorem Erase_ok (s : SpanListS) (cur : Nat) (h0 : cur ≠ 0)
    (hh : cur ≠ s.head) :
    ∃ s1, SpanList.Erase s cur = .ok s1 ∧ s1.head = s.head ∧
      (∀ x, (s1.nodes x)._next =
        if x = (s.nodes cur)._prev then (s.nodes cur)._next
        else (s.nodes x)._next) ∧
      (∀ x, (s1.nodes x)._prev =
        if x = (s.nodes cur)._next then (s.nodes cur)._prev
        else (s.nodes x)._prev) ∧
      (∀ x, (s1.nodes x)._pageId = (s.nodes x)._pageId ∧
        (s1.nodes x)._nPage = (s.nodes x)._nPage ∧
        (s1.nodes x)._freeList = (s.nodes x)._freeList ∧
        (s1.nodes x)._useCount = (s.nodes x)._useCount ∧
        (s1.nodes x)._objSize = (s.nodes x)._objSize) := by
  unfold SpanList.Erase
  rw [if_neg h0, if_neg hh]
  refine ⟨_, rfl, rfl, ?_, ?_, ?_⟩
  · intro x
    simp only [Function.update_apply]
    split_ifs <;> simp_all
  · intro x
    simp only [Function.update_apply]
    split_ifs <;> simp_all
  · intro x
    simp only [Function.update_apply]
    split_ifs <;> simp_all

/-- `Insert` before `cur` of a span distinct from `cur` and from `cur`'s
predecessor succeeds and produces the expected link updates: the
predecessor now points to `newspan`, `newspan` links between predecessor
and `cur`, `cur` points back to `newspan`; all other fields are
untouched. -/
theorem Insert_ok (s : SpanListS) (cur newspan : Nat) (hc : cur ≠ 0)
    (hn : newspan ≠ 0) (hnp : newspan ≠ (s.nodes cur)._prev)
    (hnc : newspan ≠ cur) :
    ∃ s1, SpanList.Insert s cur newspan = .ok s1 ∧ s1.head = s.head ∧
      (∀ x, (s1.nodes x)._next =
        if x = (s.nodes cur)._prev then newspan
        else if x = newspan then cur else (s.nodes x)._next) ∧
      (∀ x, (s1.nodes x)._prev =
        if x = newspan then (s.nodes cur)._prev
        else if x = cur then newspan else (s.nodes x)._prev) ∧
      (∀ x, (s1.nodes x)._pageId = (s.nodes x)._pageId ∧
        (s1.nodes x)._nPage = (s.nodes x)._nPage ∧
        (s1.nodes x)._freeList = (s.nodes x)._freeList ∧
        (s1.nodes x)._useCount = (s.nodes x)._useCount ∧
        (s1.nodes x)._objSize = (s.nodes x)._objSize) := by
  unfold SpanList.Insert
  rw [if_neg hc, if_neg hn]
  refine ⟨_, rfl, rfl, ?_, ?_, ?_⟩
  · intro x
    simp only [Function.update_apply]
    split_ifs <;> (try subst_vars) <;> (try dsimp only) <;> first | rfl | omega
  · intro x
    simp only [Function.update_apply]
    split_ifs <;> (try subst_vars) <;> (try dsimp only) <;> first | rfl | omega
  · intro x
    simp only [Function.update_apply]
    split_ifs <;> (try subst_vars) <;> (try dsimp only) <;>
      first
        | exact ⟨rfl, rfl, rfl, rfl, rfl⟩
        | omega
        | (refine ⟨?_, ?_, ?_, ?_, ?_⟩ <;> (try dsimp only) <;>
            first | rfl | (congr 2 <;> omega))

/-! ## Generic chain lemmas (C8) -/

theorem linksBy_tail (f : Span → Nat) (s : SpanListS) :
    ∀ (x : Nat) (l : List Nat), linksBy f s (x :: l) → linksBy f s l := by
  intro x l h
  cases l with
  | nil => trivial
  | cons y t => exact h.2

theorem linksBy_read (f : Span → Nat) (s : SpanListS) :
    ∀ (xs : List Nat) (a b : Nat) (ys : List Nat),
      linksBy f s (xs ++ a :: b :: ys) → f (s.nodes a) = b := by
  intro xs
  induction xs with
  | nil => intro a b ys h; exact h.1
  | cons x t ih =>
    intro a b ys h
    cases t with
    | nil => exact h.2.1
    | cons y t1 => exact ih a b ys h.2

theorem linksBy_read_headD (f : Span → Nat) (s : SpanListS)
    (xs : List Nat) (a : Nat) (ys : List Nat) (hys : ys ≠ [])
    (h : linksBy f s (xs ++ a :: ys)) : f (s.nodes a) = ys.headD 0 := by
  cases ys with
  | nil => exact absurd rfl hys
  | cons b t => exact linksBy_read f s xs a b t h

theorem linksBy_take (f : Span → Nat) (s : SpanListS) :
    ∀ (xs ys : List Nat), linksBy f s (xs ++ ys) → linksBy f s xs := by
  intro xs
  induction xs with
  | nil => intro ys _; trivial
  | cons x t ih =>
    intro ys h
    cases t with
    | nil => trivial
    | cons y t1 => exact ⟨h.1, ih ys h.2⟩

theorem linksBy_drop (f : Span → Nat) (s : SpanListS) :
    ∀ (xs ys : List Nat), linksBy f s (xs ++ ys) → linksBy f s ys := by
  intro xs
  induction xs with
  | nil => intro ys h; exact h
  | cons x t ih => intro ys h; exact ih ys (linksBy_tail f s x (t ++ ys) h)

theorem linksBy_join (f : Span → Nat) (s : SpanListS) :
    ∀ (xs : List Nat) (a : Nat) (ys : List Nat),
      linksBy f s (xs ++ [a]) → linksBy f s (a :: ys) →
      linksBy f s (xs ++ a :: ys) := by
  intro xs
  induction xs with
  | nil => intro a ys _ h2; exact h2
  | cons x t ih =>
    intro a ys h1 h2
    cases t with
    | nil => exact ⟨h1.1, h2⟩
    | cons y t1 => exact ⟨h1.1, ih a ys h1.2 h2⟩

theorem linksBy_congr (f : Span → Nat) {s s1 : SpanListS} :
    ∀ l : List Nat, (∀ x ∈ l.dropLast, f (s1.nodes x) = f (s.nodes x)) →
      linksBy f s l → linksBy f s1 l := by
  intro l
  induction l with
  | nil => intro _ _; trivial
  | cons a t ih =>
    intro hr h
    cases t with
    | nil => trivial
    | cons b t1 =>
      refine ⟨?_, ih (fun x hx => hr x (List.mem_cons_of_mem a hx)) h.2⟩
      rw [hr a (List.mem_cons_self a _)]
      exact h.1

theorem walkBy_of_linksBy (f : Span → Nat) (s : SpanListS) :
    ∀ (l : List Nat) (x : Nat), linksBy f s (x :: l) →
      walkBy f s x (l.length + 1) = x :: l := by
  intro l
  induction l with
  | nil => intro x _; rfl
  | cons b t ih =>
    intro x h
    show x :: walkBy f s (f (s.nodes x)) (t.length + 1) = x :: b :: t
    rw [h.1, ih b h.2]

/-- `headD` through a trailing singleton. -/
theorem headD_append_singleton (l : List Nat) (e d : Nat) :
    (l ++ [e]).headD d = l.headD e := by
  cases l <;> rfl

theorem linksBy_cons_of_headD (f : Span → Nat) (s : SpanListS) (a : Nat)
    (l : List Nat) (hl : l ≠ []) (h1 : f (s.nodes a) = l.headD 0)
    (h2 : linksBy f s l) : linksBy f s (a :: l) := by
  cases l with
  | nil => exact absurd rfl hl
  | cons b t => exact ⟨h1, h2⟩

/-- C10: `SpanList::Erase(cur)` mutates only the predecessor's `_next` and
the successor's `_prev`; the erased span's record — its `_prev`/`_next`
links included — and every span other than the two neighbours are left
unchanged. -/
theorem c10_erase_frame (s : SpanListS) (cur : Nat) (h0 : cur ≠ 0)
    (hh : cur ≠ s.head) (hp : (s.nodes cur)._prev ≠ cur)
    (hn : (s.nodes cur)._next ≠ cur) :
    ∃ s1, SpanList.Erase s cur = .ok s1 ∧ s1.head = s.head ∧
      s1.nodes cur = s.nodes cur ∧
      (s1.nodes ((s.nodes cur)._prev))._next = (s.nodes cur)._next ∧
      (s1.nodes ((s.nodes cur)._next))._prev = (s.nodes cur)._prev ∧
      (∀ x, x ≠ (s.nodes cur)._prev → (s1.nodes x)._next = (s.nodes x)._next) ∧
      (∀ x, x ≠ (s.nodes cur)._next → (s1.nodes x)._prev = (s.nodes x)._prev) ∧
      (∀ x, (s1.nodes x)._pageId = (s.nodes x)._pageId ∧
        (s1.nodes x)._nPage = (s.nodes x)._nPage ∧
        (s1.nodes x)._freeList = (s.nodes x)._freeList ∧
        (s1.nodes x)._useCount = (s.nodes x)._useCount ∧
        (s1.nodes x)._objSize = (s.nodes x)._objSize) := by
  obtain ⟨s1, hop, hhead, hnext, hprev, hrest⟩ := Erase_ok s cur h0 hh
  refine ⟨s1, hop, hhead, ?_, ?_, ?_, ?_, ?_, hrest⟩
  · have h1 := hnext cur
    have h2 := hprev cur
    have h3 := hrest cur
    rw [if_neg (fun h => hp h.symm)] at h1
    rw [if_neg (fun h => hn h.symm)] at h2
    ext <;> tauto
  · rw [hnext, if_pos rfl]
  · rw [hprev, if_pos rfl]
  · intro x hx
    rw [hnext, if_neg hx]
  · intro x hx
    rw [hprev, if_neg hx]

/-- C10 witness: erase span `2` from the two-node ring. -/
theorem c10_erase_frame_witness :
    ∃ s1, SpanList.Erase ringTwo 2 = .ok s1 ∧ s1.head = ringTwo.head ∧
      s1.nodes 2 = ringTwo.nodes 2 := by
  obtain ⟨s1, hop, hhead, hcur, _⟩ :=
    c10_erase_frame ringTwo 2 (by decide) (by decide) (by decide) (by decide)
  exact ⟨s1, hop, hhead, hcur⟩

/-! ## SpanList invariant maintenance (C8) -/

/-- `Insert` before `L2.headD s.head` preserves the representation,
splicing the new span between `L1` and `L2`. -/
theorem repr_insert (s s1 : SpanListS) (L1 L2 : List Nat) (newspan : Nat)
    (ih : SpanListRepr s (L1 ++ L2)) (h0 : newspan ≠ 0) (hh : newspan ≠ s.head)
    (hL : newspan ∉ L1 ++ L2)
    (hop : SpanList.Insert s (L2.headD s.head) newspan = .ok s1) :
    SpanListRepr s1 (L1 ++ newspan :: L2) := by
  obtain ⟨hN, hP, hnd, hh0, hz⟩ := ih
  obtain ⟨hhmem, hndL⟩ := List.nodup_cons.mp hnd
  obtain ⟨hnd1, hnd2, hdisj⟩ := List.nodup_append.mp hndL
  have hh1 : s.head ∉ L1 := fun h => hhmem (List.mem_append_left _ h)
  have hh2 : s.head ∉ L2 := fun h => hhmem (List.mem_append_right _ h)
  have hL1 : newspan ∉ L1 := fun h => hL (List.mem_append_left _ h)
  have hL2 : newspan ∉ L2 := fun h => hL (List.mem_append_right _ h)
  have hp : (s.nodes (L2.headD s.head))._prev = L1.reverse.headD s.head := by
    cases L2 with
    | nil =>
      have hP1 : linksBy Span._prev s ([] ++ s.head :: (L1.reverse ++ [s.head])) := by
        simpa using hP
      have h := linksBy_read_headD Span._prev s [] s.head (L1.reverse ++ [s.head])
        (by simp) hP1
      rw [headD_append_singleton] at h
      exact h
    | cons c t =>
      have hP1 : linksBy Span._prev s
          ((s.head :: t.reverse) ++ c :: (L1.reverse ++ [s.head])) := by
        simpa [List.reverse_append] using hP
      have h := linksBy_read_headD Span._prev s (s.head :: t.reverse) c
        (L1.reverse ++ [s.head]) (by simp) hP1
      rw [headD_append_singleton] at h
      exact h
  have hc0 : L2.headD s.head ≠ 0 := by
    cases L2 with
    | nil => exact hh0
    | cons c t => exact hz c (List.mem_append_right _ (List.mem_cons_self c t))
  have hncur : newspan ≠ L2.headD s.head := by
    cases L2 with
    | nil => exact hh
    | cons c t => exact fun e => hL2 (by rw [e]; exact List.mem_cons_self c t)
  have hnp : newspan ≠ (s.nodes (L2.headD s.head))._prev := by
    rw [hp]
    cases hE : L1.reverse with
    | nil => simpa [hE] using hh
    | cons w ws =>
      have hw : w ∈ L1 := List.mem_reverse.mp (by rw [hE]; exact List.mem_cons_self w ws)
      simpa [hE] using fun e => hL1 (by rw [e]; exact hw)
  obtain ⟨s1', hop', hhead1, hnext1, hprev1, _⟩ :=
    Insert_ok s (L2.headD s.head) newspan hc0 h0 hnp hncur
  rw [hop] at hop'
  obtain rfl : s1 = s1' := Except.ok.inj hop'
  simp only [hp] at hnext1 hprev1
  have hkN : ∀ y, y ≠ L1.reverse.headD s.head → y ≠ newspan →
      (s1.nodes y)._next = (s.nodes y)._next := by
    intro y h1 h2
    rw [hnext1 y, if_neg h1, if_neg h2]
  have hkP : ∀ y, y ≠ newspan → y ≠ L2.headD s.head →
      (s1.nodes y)._prev = (s.nodes y)._prev := by
    intro y h1 h2
    rw [hprev1 y, if_neg h1, if_neg h2]
  have hzmem : ∀ y ∈ L2, y ≠ L1.reverse.headD s.head := by
    intro y hy
    cases hE : L1.reverse with
    | nil => simpa [hE] using fun e => hh2 (by rw [← e]; exact hy)
    | cons w ws =>
      have hw : w ∈ L1 := List.mem_reverse.mp (by rw [hE]; exact List.mem_cons_self w ws)
      simpa [hE] using fun e => hdisj hw (by rw [← e]; exact hy)
  refine ⟨?_, ?_, ?_, ?_, ?_⟩
  · show linksBy Span._next s1 (s1.head :: (L1 ++ newspan :: L2) ++ [s1.head])
    rw [hhead1]
    have hshape : s.head :: (L1 ++ newspan :: L2) ++ [s.head] =
        (s.head :: L1) ++ newspan :: (L2 ++ [s.head]) := by simp
    rw [hshape]
    have hBold : linksBy Span._next s (L2 ++ [s.head]) := by
      have h1 : linksBy Span._next s ((s.head :: L1) ++ (L2 ++ [s.head])) := by
        simpa using hN
      exact linksBy_drop _ _ _ _ h1
    have hB1 : linksBy Span._next s1 (L2 ++ [s.head]) := by
      refine linksBy_congr Span._next _ (fun y hy => ?_) hBold
      rw [List.dropLast_concat] at hy
      exact hkN y (hzmem y hy) (fun e => hL2 (by rw [← e]; exact hy))
    have hii : linksBy Span._next s1 (newspan :: (L2 ++ [s.head])) := by
      refine linksBy_cons_of_headD Span._next s1 newspan (L2 ++ [s.head])
        (by simp) ?_ hB1
      rw [hnext1 newspan, if_neg (hp ▸ hnp), if_pos rfl, headD_append_singleton]
    refine linksBy_join Span._next s1 (s.head :: L1) newspan (L2 ++ [s.head]) ?_ hii
    rcases List.eq_nil_or_concat L1 with rfl | ⟨l1, z1, rfl⟩
    · exact ⟨by rw [hnext1 s.head]; simp, trivial⟩
    · simp only [List.concat_eq_append] at *
      have hz1 : (l1 ++ [z1]).reverse.headD s.head = z1 := by simp
      have hprefix : linksBy Span._next s ((s.head :: l1) ++ [z1]) := by
        have h1 : linksBy Span._next s
            (((s.head :: l1) ++ [z1]) ++ (L2 ++ [s.head])) := by
          simpa using hN
        exact linksBy_take _ _ _ _ h1
      have hnodupz : z1 ∉ s.head :: l1 := by
        have h1 : (l1 ++ [z1]).Nodup := hnd1
        intro hmem
        rcases List.mem_cons.mp hmem with e | e
        · exact hh1 (by rw [← e]; exact List.mem_append_right _ (List.mem_cons_self z1 []))
        · have := List.disjoint_of_nodup_append h1
          exact this e (List.mem_cons_self z1 [])
      have hprefix1 : linksBy Span._next s1 ((s.head :: l1) ++ [z1]) := by
        refine linksBy_congr Span._next _ (fun y hy => ?_) hprefix
        rw [List.dropLast_concat] at hy
        refine hkN y ?_ ?_
        · rw [hz1]; exact fun e => hnodupz (by rw [← e]; exact hy)
        · rcases List.mem_cons.mp hy with e | e
          · exact fun e2 => hh (by rw [← e2, e])
          · exact fun e2 => hL1 (by rw [← e2]; exact List.mem_append_left _ e)
      have hlast : linksBy Span._next s1 (z1 :: [newspan]) := by
        refine ⟨?_, trivial⟩
        rw [hnext1 z1, hz1, if_pos rfl]
      have := linksBy_join Span._next s1 (s.head :: l1) z1 [newspan] hprefix1 hlast
      simpa using this
  · show linksBy Span._prev s1 (s1.head :: (L1 ++ newspan :: L2).reverse ++ [s1.head])
    rw [hhead1]
    have hshape : s.head :: (L1 ++ newspan :: L2).reverse ++ [s.head] =
        (s.head :: L2.reverse) ++ newspan :: (L1.reverse ++ [s.head]) := by
      simp [List.reverse_append]
    rw [hshape]
    have hBold : linksBy Span._prev s (L1.reverse ++ [s.head]) := by
      have h1 : linksBy Span._prev s
          ((s.head :: L2.reverse) ++ (L1.reverse ++ [s.head])) := by
        simpa [List.reverse_append] using hP
      exact linksBy_drop _ _ _ _ h1
    have hB1 : linksBy Span._prev s1 (L1.reverse ++ [s.head]) := by
      refine linksBy_congr Span._prev _ (fun y hy => ?_) hBold
      rw [List.dropLast_concat] at hy
      have hyL1 : y ∈ L1 := List.mem_reverse.mp hy
      refine hkP y (fun e => hL1 (by rw [← e]; exact hyL1)) ?_
      cases L2 with
      | nil =>
        intro e
        have e2 : y = s.head := e
        rw [e2] at hyL1
        exact hh1 hyL1
      | cons c t =>
        intro e
        have e2 : y = c := e
        rw [e2] at hyL1
        exact hdisj hyL1 (List.mem_cons_self c t)
    have hii : linksBy Span._prev s1 (newspan :: (L1.reverse ++ [s.head])) := by
      refine linksBy_cons_of_headD Span._prev s1 newspan (L1.reverse ++ [s.head])
        (by simp) ?_ hB1
      rw [hprev1 newspan, if_pos rfl, headD_append_singleton]
    refine linksBy_join Span._prev s1 (s.head :: L2.reverse) newspan
      (L1.reverse ++ [s.head]) ?_ hii
    cases L2 with
    | nil =>
      refine ⟨?_, trivial⟩
      rw [hprev1 s.head, if_neg (fun e => hh e.symm),
        if_pos (show s.head = [].headD s.head from rfl)]
    | cons c t =>
      have hshape2 : (s.head :: (c :: t).reverse) ++ [newspan] =
          ((s.head :: t.reverse) ++ [c]) ++ [newspan] := by simp
      rw [hshape2]
      have hcnot : c ∉ s.head :: t.reverse := by
        intro hmem
        rcases List.mem_cons.mp hmem with e | e
        · exact hh2 (by rw [← e]; exact List.mem_cons_self c t)
        · have hct : c ∈ t := List.mem_reverse.mp e
          have := List.nodup_cons.mp hnd2
          exact this.1 hct
      have hprefix : linksBy Span._prev s ((s.head :: t.reverse) ++ [c]) := by
        have h1 : linksBy Span._prev s
            (((s.head :: t.reverse) ++ [c]) ++ (L1.reverse ++ [s.head])) := by
          simpa [List.reverse_append] using hP
        exact linksBy_take _ _ _ _ h1
      have hprefix1 : linksBy Span._prev s1 ((s.head :: t.reverse) ++ [c]) := by
        refine linksBy_congr Span._prev _ (fun y hy => ?_) hprefix
        rw [List.dropLast_concat] at hy
        refine hkP y ?_ ?_
        · rcases List.mem_cons.mp hy with e | e
          · exact fun e2 => hh (by rw [← e2, e])
          · exact fun e2 => hL2 (by rw [← e2]; exact List.mem_cons_of_mem c (List.mem_reverse.mp e))
        · intro e2
          have e3 : y = c := e2
          rw [e3] at hy
          exact hcnot hy
      have hlast : linksBy Span._prev s1 (c :: [newspan]) := by
        refine ⟨?_, trivial⟩
        rw [hprev1 c, if_neg (fun e => hL2 (by rw [← e]; exact List.mem_cons_self c t)),
          if_pos (show c = (c :: t).headD s.head from rfl)]
      have := linksBy_join Span._prev s1 (s.head :: t.reverse) c [newspan]
        hprefix1 hlast
      simpa using this
  · show (s1.head :: (L1 ++ newspan :: L2)).Nodup
    rw [hhead1]
    have h1 : s.head :: (L1 ++ newspan :: L2) = (s.head :: L1) ++ newspan :: L2 := by
      simp
    rw [h1, List.nodup_middle]
    refine List.nodup_cons.mpr ⟨?_, by simpa using hnd⟩
    intro hmem
    rcases List.mem_append.mp hmem with e | e
    · rcases List.mem_cons.mp e with e1 | e1
      · exact hh e1
      · exact hL1 e1
    · exact hL2 e
  · show s1.head ≠ 0
    rw [hhead1]; exact hh0
  · show ∀ x ∈ L1 ++ newspan :: L2, x ≠ 0
    intro y hy
    rcases List.mem_append.mp hy with e | e
    · exact hz y (List.mem_append_left _ e)
    · rcases List.mem_cons.mp e with e1 | e1
      · rw [e1]; exact h0
      · exact hz y (List.mem_append_right _ e1)

/-- `Erase` of a live span preserves the representation, removing it from
the live list. -/
theorem repr_erase (s s1 : SpanListS) (L1 L2 : List Nat) (x : Nat)
    (ih : SpanListRepr s (L1 ++ x :: L2))
    (hop : SpanList.Erase s x = .ok s1) :
    SpanListRepr s1 (L1 ++ L2) := by
  obtain ⟨hN, hP, hnd, hh0, hz⟩ := ih
  obtain ⟨hhmem, hndL⟩ := List.nodup_cons.mp hnd
  have hx0 : x ≠ 0 := hz x (List.mem_append_right _ (List.mem_cons_self x L2))
  have hxh : x ≠ s.head := fun e =>
    hhmem (by rw [← e]; exact List.mem_append_right _ (List.mem_cons_self x L2))
  have hndLL : (L1 ++ L2).Nodup := by
    have hsub : List.Sublist (L1 ++ L2) (L1 ++ x :: L2) :=
      List.Sublist.append_left (List.sublist_cons_self x L2) L1
    exact List.Nodup.sublist hsub hndL
  have hh1 : s.head ∉ L1 := fun h => hhmem (List.mem_append_left _ h)
  have hh2 : s.head ∉ L2 := fun h =>
    hhmem (List.mem_append_right _ (List.mem_cons_of_mem x h))
  obtain ⟨hnd1, hndx2, hdisj1⟩ := List.nodup_append.mp hndL
  obtain ⟨hxL2, hnd2⟩ := List.nodup_cons.mp hndx2
  have hdisj : L1.Disjoint L2 := fun a ha hb => hdisj1 ha (List.mem_cons_of_mem x hb)
  have hpx : (s.nodes x)._prev = L1.reverse.headD s.head := by
    have hP1 : linksBy Span._prev s
        ((s.head :: L2.reverse) ++ x :: (L1.reverse ++ [s.head])) := by
      simpa [List.reverse_append] using hP
    have h := linksBy_read_headD Span._prev s (s.head :: L2.reverse) x
      (L1.reverse ++ [s.head]) (by simp) hP1
    rw [headD_append_singleton] at h
    exact h
  have hnx : (s.nodes x)._next = L2.headD s.head := by
    have hN1 : linksBy Span._next s ((s.head :: L1) ++ x :: (L2 ++ [s.head])) := by
      simpa using hN
    have h := linksBy_read_headD Span._next s (s.head :: L1) x
      (L2 ++ [s.head]) (by simp) hN1
    rw [headD_append_singleton] at h
    exact h
  obtain ⟨s1', hop', hhead1, hnext1, hprev1, _⟩ := Erase_ok s x hx0 hxh
  rw [hop] at hop'
  obtain rfl : s1 = s1' := Except.ok.inj hop'
  simp only [hpx, hnx] at hnext1 hprev1
  have hkN : ∀ y, y ≠ L1.reverse.headD s.head →
      (s1.nodes y)._next = (s.nodes y)._next := fun y h1 => by
    rw [hnext1 y, if_neg h1]
  have hkP : ∀ y, y ≠ L2.headD s.head →
      (s1.nodes y)._prev = (s.nodes y)._prev := fun y h1 => by
    rw [hprev1 y, if_neg h1]
  have hzmem2 : ∀ y ∈ L2, y ≠ L1.reverse.headD s.head := by
    intro y hy
    cases hE : L1.reverse with
    | nil => simpa [hE] using fun e => hh2 (by rw [← e]; exact hy)
    | cons w ws =>
      have hw : w ∈ L1 := List.mem_reverse.mp (by rw [hE]; exact List.mem_cons_self w ws)
      simpa [hE] using fun e => hdisj hw (by rw [← e]; exact hy)
  have hzmem1 : ∀ y ∈ L1, y ≠ L2.headD s.head := by
    intro y hy
    cases L2 with
    | nil =>
      intro e
      have e2 : y = s.head := e
      rw [e2] at hy
      exact hh1 hy
    | cons c t =>
      intro e
      have e2 : y = c := e
      rw [e2] at hy
      exact hdisj hy (List.mem_cons_self c t)
  refine ⟨?_, ?_, ?_, ?_, ?_⟩
  · show linksBy Span._next s1 (s1.head :: (L1 ++ L2) ++ [s1.head])
    rw [hhead1]
    have hshape : s.head :: (L1 ++ L2) ++ [s.head] =
        (s.head :: L1) ++ (L2 ++ [s.head]) := by simp
    rw [hshape]
    have hBold : linksBy Span._next s (L2 ++ [s.head]) := by
      have h1 : linksBy Span._next s
          (((s.head :: L1) ++ [x]) ++ (L2 ++ [s.head])) := by
        simpa using hN
      exact linksBy_drop _ _ _ _ h1
    have hB1 : linksBy Span._next s1 (L2 ++ [s.head]) := by
      refine linksBy_congr Span._next _ (fun y hy => ?_) hBold
      rw [List.dropLast_concat] at hy
      exact hkN y (hzmem2 y hy)
    rcases List.eq_nil_or_concat L1 with rfl | ⟨l1, z1, rfl⟩
    · refine linksBy_cons_of_headD Span._next s1 s.head (L2 ++ [s.head])
        (by simp) ?_ hB1
      rw [hnext1 s.head, if_pos (show s.head = [].reverse.headD s.head from rfl),
        headD_append_singleton]
    · simp only [List.concat_eq_append] at *
      have hz1 : (l1 ++ [z1]).reverse.headD s.head = z1 := by simp
      have hshape2 : (s.head :: (l1 ++ [z1])) ++ (L2 ++ [s.head]) =
          (s.head :: l1) ++ z1 :: (L2 ++ [s.head]) := by simp
      rw [hshape2]
      have hnodupz : z1 ∉ s.head :: l1 := by
        intro hmem
        rcases List.mem_cons.mp hmem with e | e
        · exact hh1 (by rw [← e]; exact List.mem_append_right _ (List.mem_cons_self z1 []))
        · exact (List.disjoint_of_nodup_append hnd1) e (List.mem_cons_self z1 [])
      have hprefix : linksBy Span._next s ((s.head :: l1) ++ [z1]) := by
        have h1 : linksBy Span._next s
            (((s.head :: l1) ++ [z1]) ++ (x :: (L2 ++ [s.head]))) := by
          simpa using hN
        exact linksBy_take _ _ _ _ h1
      have hprefix1 : linksBy Span._next s1 ((s.head :: l1) ++ [z1]) := by
        refine linksBy_congr Span._next _ (fun y hy => ?_) hprefix
        rw [List.dropLast_concat] at hy
        refine hkN y ?_
        rw [hz1]
        exact fun e => hnodupz (by rw [← e]; exact hy)
      refine linksBy_join Span._next s1 (s.head :: l1) z1 (L2 ++ [s.head])
        hprefix1 ?_
      refine linksBy_cons_of_headD Span._next s1 z1 (L2 ++ [s.head])
        (by simp) ?_ hB1
      rw [hnext1 z1, hz1, if_pos rfl, headD_append_singleton]
  · show linksBy Span._prev s1 (s1.head :: (L1 ++ L2).reverse ++ [s1.head])
    rw [hhead1]
    have hshape : s.head :: (L1 ++ L2).reverse ++ [s.head] =
        (s.head :: L2.reverse) ++ (L1.reverse ++ [s.head]) := by
      simp [List.reverse_append]
    rw [hshape]
    have hBold : linksBy Span._prev s (L1.reverse ++ [s.head]) := by
      have h1 : linksBy Span._prev s
          (((s.head :: L2.reverse) ++ [x]) ++ (L1.reverse ++ [s.head])) := by
        simpa [List.reverse_append] using hP
      exact linksBy_drop _ _ _ _ h1
    have hB1 : linksBy Span._prev s1 (L1.reverse ++ [s.head]) := by
      refine linksBy_congr Span._prev _ (fun y hy => ?_) hBold
      rw [List.dropLast_concat] at hy
      exact hkP y (hzmem1 y (List.mem_reverse.mp hy))
    cases L2 with
    | nil =>
      refine linksBy_cons_of_headD Span._prev s1 s.head (L1.reverse ++ [s.head])
        (by simp) ?_ hB1
      rw [hprev1 s.head, if_pos (show s.head = [].headD s.head from rfl),
        headD_append_singleton]
    | cons c t =>
      have hshape2 : (s.head :: (c :: t).reverse) ++ (L1.reverse ++ [s.head]) =
          (s.head :: t.reverse) ++ c :: (L1.reverse ++ [s.head]) := by simp
      rw [hshape2]
      have hcnot : c ∉ s.head :: t.reverse := by
        intro hmem
        rcases List.mem_cons.mp hmem with e | e
        · exact hh2 (by rw [← e]; exact List.mem_cons_self c t)
        · exact (List.nodup_cons.mp hnd2).1 (List.mem_reverse.mp e)
      have hprefix : linksBy Span._prev s ((s.head :: t.reverse) ++ [c]) := by
        have h1 : linksBy Span._prev s
            (((s.head :: t.reverse) ++ [c]) ++ (x :: (L1.reverse ++ [s.head]))) := by
          simpa [List.reverse_append] using hP
        exact linksBy_take _ _ _ _ h1
      have hprefix1 : linksBy Span._prev s1 ((s.head :: t.reverse) ++ [c]) := by
        refine linksBy_congr Span._prev _ (fun y hy => ?_) hprefix
        rw [List.dropLast_concat] at hy
        refine hkP y ?_
        intro e
        have e2 : y = c := e
        rw [e2] at hy
        exact hcnot hy
      refine linksBy_join Span._prev s1 (s.head :: t.reverse) c
        (L1.reverse ++ [s.head]) hprefix1 ?_
      refine linksBy_cons_of_headD Span._prev s1 c (L1.reverse ++ [s.head])
        (by simp) ?_ hB1
      rw [hprev1 c, if_pos (show c = (c :: t).headD s.head from rfl),
        headD_append_singleton]
  · show (s1.head :: (L1 ++ L2)).Nodup
    rw [hhead1]
    refine List.nodup_cons.mpr ⟨?_, hndLL⟩
    intro h
    rcases List.mem_append.mp h with e | e
    · exact hhmem (List.mem_append_left _ e)
    · exact hhmem (List.mem_append_right _ (List.mem_cons_of_mem x e))
  · show s1.head ≠ 0
    rw [hhead1]
    exact hh0
  · intro y hy
    rcases List.mem_append.mp hy with e | e
    · exact hz y (List.mem_append_left _ e)
    · exact hz y (List.mem_append_right _ (List.mem_cons_of_mem x e))

/-- A freshly constructed `SpanList` represents the empty live list. -/
theorem repr_init (m : Nat → Span) (h : Nat) (h0 : h ≠ 0) :
    SpanListRepr (mkSpanList m h) [] := by
  refine ⟨?_, ?_, by simp, h0, by simp⟩
  · show linksBy Span._next (mkSpanList m h) (h :: [] ++ [h])
    refine ⟨?_, trivial⟩
    show Span._next ((mkSpanList m h).nodes h) = h
    simp [mkSpanList, Function.update_same]
  · show linksBy Span._prev (mkSpanList m h) (h :: [].reverse ++ [h])
    refine ⟨?_, trivial⟩
    show Span._prev ((mkSpanList m h).nodes h) = h
    simp [mkSpanList, Function.update_same]

/-- Every reachable `SpanList` state satisfies the ring representation. -/
theorem Reach_repr {s : SpanListS} {L : List Nat} (h : Reach s L) :
    SpanListRepr s L := by
  induction h with
  | init m hd h0 => exact repr_init m hd h0
  | insert hr h0 hh hL hop ih => exact repr_insert _ _ _ _ _ ih h0 hh hL hop
  | erase hr hop ih => exact repr_erase _ _ _ _ _ ih hop

/-- C8: after any sequence of `Insert` (at positions inside the list) and
`Erase` (never of the sentinel) from a fresh `SpanList`, following `_next`
from `Begin()` visits exactly the live spans and reaches `End()` after
exactly `|L|` steps; following `_prev` from `End()`'s predecessor visits
the same spans in reverse order back to `End()`; and `Empty()` is true iff
the live list is empty, iff the sentinel's `_next` and `_prev` both point
to the sentinel itself. -/
theorem c8_spanlist_invariant (s : SpanListS) (L : List Nat) (hr : Reach s L) :
    walkNext s (SpanList.Begin s) (L.length + 1) = L ++ [SpanList.End s] ∧
    walkPrev s ((s.nodes (SpanList.End s))._prev) (L.length + 1) =
      L.reverse ++ [SpanList.End s] ∧
    (SpanList.Empty s = true ↔ L = []) ∧
    (SpanList.Empty s = true ↔
      (s.nodes s.head)._next = s.head ∧ (s.nodes s.head)._prev = s.head) := by
  obtain ⟨hN, hP, hnd, hh0, hz⟩ := Reach_repr hr
  have hhud : s.head ∉ L := (List.nodup_cons.mp hnd).1
  have wN : walkNext s (SpanList.Begin s) (L.length + 1) = L ++ [SpanList.End s] := by
    show walkBy Span._next s ((s.nodes s.head)._next) (L.length + 1) =
      L ++ [s.head]
    cases L with
    | nil =>
      have h1 : (s.nodes s.head)._next = s.head := hN.1
      rw [h1]
      rfl
    | cons a t =>
      have h1 : (s.nodes s.head)._next = a := hN.1
      rw [h1]
      have h2 := walkBy_of_linksBy Span._next s (t ++ [s.head]) a hN.2
      simpa using h2
  have wP : walkPrev s ((s.nodes (SpanList.End s))._prev) (L.length + 1) =
      L.reverse ++ [SpanList.End s] := by
    show walkBy Span._prev s ((s.nodes s.head)._prev) (L.length + 1) =
      L.reverse ++ [s.head]
    cases hE : L.reverse with
    | nil =>
      have hL0 : L = [] := by simpa using congrArg List.reverse hE
      subst hL0
      have h1 : (s.nodes s.head)._prev = s.head := hP.1
      rw [h1]
      rfl
    | cons a t =>
      rw [hE] at hP
      have h1 : (s.nodes s.head)._prev = a := hP.1
      have hlen : L.length = t.length + 1 := by
        have h3 := congrArg List.length hE
        simpa using h3
      rw [h1, hlen]
      have h2 := walkBy_of_linksBy Span._prev s (t ++ [s.head]) a hP.2
      simpa using h2
  have hemp : SpanList.Empty s = true ↔ L = [] := by
    unfold SpanList.Empty
    cases L with
    | nil =>
      have h1 : (s.nodes s.head)._next = s.head := hN.1
      simp [h1]
    | cons a t =>
      have h1 : (s.nodes s.head)._next = a := hN.1
      have h2 : a ≠ s.head := fun e =>
        hhud (by rw [← e]; exact List.mem_cons_self a t)
      simp [h1, h2]
  refine ⟨wN, wP, hemp, ?_⟩
  constructor
  · intro he
    have hL0 : L = [] := hemp.mp he
    subst hL0
    exact ⟨hN.1, hP.1⟩
  · intro hpair
    unfold SpanList.Empty
    simp [hpair.1]

/-- C8 witness: the fresh one-sentinel list at address `1`. -/
theorem c8_spanlist_invariant_witness :
    walkNext (mkSpanList (fun _ => ⟨0, 0, 0, 0, 0, 0, 0⟩) 1)
      (SpanList.Begin (mkSpanList (fun _ => ⟨0, 0, 0, 0, 0, 0, 0⟩) 1)) 1 = [1] ∧
    SpanList.Empty (mkSpanList (fun _ => ⟨0, 0, 0, 0, 0, 0, 0⟩) 1) = true := by
  have h := c8_spanlist_invariant _ []
    (Reach.init (fun _ => ⟨0, 0, 0, 0, 0, 0, 0⟩) 1 (by decide))
  constructor
  · have h1 := h.1
    simpa [SpanList.End, mkSpanList] using h1
  · exact h.2.2.1.mpr rfl

/-- C7 witness with the three objects `1, 2, 3`. -/
theorem c7_freelist_lifo_witness :
    FreeList.Empty initFreeList = true ∧
    ∃ s, FreeList.pushList initFreeList [1, 2, 3] = .ok s ∧
      ∀ k, k ≤ 3 →
        ∃ sk, FreeList.popN s k = .ok (([1, 2, 3] : List Nat).reverse.take k, sk) ∧
          (FreeList.Empty sk = true ↔ k = 3) := by
  have h := c7_freelist_lifo [1, 2, 3] (by decide) (by decide)
  simpa using h

end MemoryPool

